import Mathlib

/-!
Shallow embedding of the jsontoxlsx converter (src/converter.js).

The JavaScript value universe relevant to the converter is modelled by
`Json`.  JavaScript objects are modelled as association lists whose order is
the object's enumeration order; JavaScript numbers are modelled as integers
(the claims only involve integral values).  Property assignment
(`result[k] = v`) is modelled by `setKey`, which updates an existing binding
in place and otherwise appends, matching JavaScript object-key semantics.
The moment-js date formatter is external to the repository, so the flatten
transform is parameterised by the formatting function `fmt`.
-/

namespace JsonToXlsx

/-- JSON-like values as manipulated by converter.js. -/
inductive Json where
  | null : Json
  | bool (b : Bool) : Json
  | num (n : Int) : Json
  | str (s : String) : Json
  | arr (elems : List Json) : Json
  | obj (fields : List (String × Json)) : Json

/-- `typeof item !== 'object' && !Array.isArray(item)` from line 164 of
converter.js.  Note `typeof null === 'object'` in JavaScript, so `null` is
not simple. -/
def isSimple : Json → Bool
  | .null => false
  | .arr _ => false
  | .obj _ => false
  | _ => true

/-- The hardcoded list of timestamp field names (line 170 of converter.js). -/
def timestampFields : List String :=
  ["createdOn", "modifiedOn", "dueDate", "reportedTime", "remainingTime"]

/-- `parentKey ? parentKey + "." + key : key` (line 157 of converter.js);
the empty string is falsy in JavaScript. -/
def dotPath (parentKey key : String) : String :=
  if parentKey = "" then key else parentKey ++ "." ++ key

/-- JavaScript object property assignment `m[key] = value` on an
association list: replace in place if present, else append. -/
def setKey {α : Type} (m : List (String × α)) (key : String) (value : α) :
    List (String × α) :=
  match m with
  | [] => [(key, value)]
  | (k, v) :: rest =>
    if k = key then (key, value) :: rest else (k, v) :: setKey rest key value

/-- The keys of a record, in enumeration order (`Object.keys`). -/
def keysOf {α : Type} (m : List (String × α)) : List String :=
  m.map Prod.fst

/-- The values of a record. -/
def valuesOf {α : Type} (m : List (String × α)) : List α :=
  m.map Prod.snd

mutual

/-- Element coercion of JavaScript `Array.prototype.join`: `null` becomes
the empty string, other values their default string form.  The `arr` and
`obj` cases mirror JavaScript `String()` coercion; in converter.js `join`
is only reached when every element satisfies `isSimple`. -/
def joinElem : Json → String
  | .null => ""
  | .bool true => "true"
  | .bool false => "false"
  | .num n => toString n
  | .str s => s
  | .arr elems => joinElemList elems
  | .obj _ => "[object Object]"
termination_by j => sizeOf j

/-- Comma-joined coercions, as JavaScript `Array.prototype.toString`. -/
def joinElemList : List Json → String
  | [] => ""
  | [j] => joinElem j
  | j :: rest => joinElem j ++ "," ++ joinElemList rest
termination_by l => sizeOf l

end

/-- `arr.join(', ')` from line 166 of converter.js. -/
def joinScalars (elems : List Json) : String :=
  String.intercalate ", " (elems.map joinElem)

/-- One hexadecimal digit, lower case. -/
def hexDigit (n : Nat) : Char :=
  if n < 10 then Char.ofNat (48 + n) else Char.ofNat (87 + n)

/-- JSON string escaping of one character, as in `JSON.stringify`. -/
def escapeChar (c : Char) : String :=
  if c = '"' then "\\\""
  else if c = '\\' then "\\\\"
  else if c = '\x08' then "\\b"
  else if c = '\x09' then "\\t"
  else if c = '\x0a' then "\\n"
  else if c = '\x0c' then "\\f"
  else if c = '\x0d' then "\\r"
  else if c.toNat < 32 then
    "\\u00" ++ String.mk [hexDigit (c.toNat / 16), hexDigit (c.toNat % 16)]
  else String.singleton c

/-- JSON string escaping, as in `JSON.stringify`. -/
def escapeString (s : String) : String :=
  String.join (s.data.map escapeChar)

/-- A JSON string literal: quotes around the escaped content. -/
def quoteJson (s : String) : String :=
  "\"" ++ escapeString s ++ "\""

mutual

/-- Compact serialization `JSON.stringify` (line 168 of converter.js). -/
def stringify : Json → String
  | .null => "null"
  | .bool true => "true"
  | .bool false => "false"
  | .num n => toString n
  | .str s => quoteJson s
  | .arr elems => "[" ++ stringifyElems elems ++ "]"
  | .obj fields => "\x7b" ++ stringifyProps fields ++ "\x7d"
termination_by j => sizeOf j

/-- Comma-separated compact serializations of array elements. -/
def stringifyElems : List Json → String
  | [] => ""
  | [j] => stringify j
  | j :: rest => stringify j ++ "," ++ stringifyElems rest
termination_by l => sizeOf l

/-- Comma-separated compact serializations of object properties. -/
def stringifyProps : List (String × Json) → String
  | [] => ""
  | [(k, v)] => quoteJson k ++ ":" ++ stringify v
  | (k, v) :: rest => quoteJson k ++ ":" ++ stringify v ++ "," ++ stringifyProps rest
termination_by l => sizeOf l

end

/-- The own enumerable properties visited by `for (const key in obj)`:
object fields in enumeration order; array and string indices as decimal
keys; primitives have none. -/
def ownProps : Json → List (String × Json)
  | .obj fields => fields
  | .arr elems => elems.enum.map fun p => (toString p.1, p.2)
  | .str s => s.data.enum.map fun p => (toString p.1, Json.str (String.singleton p.2))
  | _ => []

/-- `#flattenAndCleanObject` (lines 154-179 of converter.js), after the
`for..in` loop over the current object has been made explicit as a list of
properties.  `fmt` stands for `#formatTimestampField` (moment-js, external).
Branch order follows the source: nested object, array, timestamp field,
scalar passthrough. -/
def flattenAux (fmt : Int → String) (props : List (String × Json))
    (parentKey : String) (result : List (String × Json)) :
    List (String × Json) :=
  match props with
  | [] => result
  | (key, .obj fields) :: rest =>
    flattenAux fmt rest parentKey
      (flattenAux fmt fields (dotPath parentKey key) result)
  | (key, .arr elems) :: rest =>
    flattenAux fmt rest parentKey
      (if elems.all isSimple then
        setKey result (dotPath parentKey key) (.str (joinScalars elems))
      else
        setKey result (dotPath parentKey key) (.str (stringify (.arr elems))))
  | (key, .num n) :: rest =>
    flattenAux fmt rest parentKey
      (if key ∈ timestampFields ∧ 0 < n then
        setKey result (dotPath parentKey key) (.str (fmt n))
      else
        setKey result (dotPath parentKey key) (.num n))
  | (key, .null) :: rest =>
    flattenAux fmt rest parentKey (setKey result (dotPath parentKey key) .null)
  | (key, .bool b) :: rest =>
    flattenAux fmt rest parentKey (setKey result (dotPath parentKey key) (.bool b))
  | (key, .str s) :: rest =>
    flattenAux fmt rest parentKey (setKey result (dotPath parentKey key) (.str s))

/-- Top-level entry of `#flattenAndCleanObject`: flatten one element of the
source array, starting from the empty parent key and an empty result. -/
def flattenAndCleanObject (fmt : Int → String) (j : Json) :
    List (String × Json) :=
  flattenAux fmt (ownProps j) "" []

/-- A concrete timestamp formatter used to instantiate `fmt` in examples. -/
def fmt0 : Int → String := fun n => "ts " ++ toString n

/-- Values are scalars in the flattened-output sense: anything that is not a
structured mapping and not a sequence (so `null`, booleans, numbers and
strings). -/
def isFlatScalar : Json → Bool
  | .null => true
  | .bool _ => true
  | .num _ => true
  | .str _ => true
  | .arr _ => false
  | .obj _ => false

/-- Is the value a string or a number?  Used to state the FlatRecord value
typing of the data model. -/
def isStringOrNumber : Json → Bool
  | .str _ => true
  | .num _ => true
  | .null => false
  | .bool _ => false
  | .arr _ => false
  | .obj _ => false

/-- The root-to-leaf (or root-to-array) key sequences of a property list:
a path descends through nested objects and stops at any non-object value. -/
def pathsOf : List (String × Json) → List (List String)
  | [] => []
  | (key, .obj fields) :: rest => (pathsOf fields).map (key :: ·) ++ pathsOf rest
  | (key, .arr _) :: rest => [key] :: pathsOf rest
  | (key, .num _) :: rest => [key] :: pathsOf rest
  | (key, .null) :: rest => [key] :: pathsOf rest
  | (key, .bool _) :: rest => [key] :: pathsOf rest
  | (key, .str _) :: rest => [key] :: pathsOf rest

/-- Join a key sequence onto a parent prefix the way converter.js builds
dotted paths: fold `dotPath` (so an empty accumulated prefix restarts
joining instead of contributing a separator). -/
def joinPath (parent : String) (p : List String) : String :=
  p.foldl dotPath parent

/-- A cell of a projected record.  JavaScript `newRow[field] = row[field]`
stores `undefined` when `field` is absent from `row`; `undef` models that
distinguished non-value. -/
inductive CellValue where
  | undef : CellValue
  | val (j : Json) : CellValue

/-- JavaScript property read `row[field]`: the stored value, or `undefined`
when the key is absent. -/
def cellOf (row : List (String × Json)) (field : String) : CellValue :=
  match row.lookup field with
  | some v => CellValue.val v
  | none => CellValue.undef

/-- Restriction of one flat record to the selected fields, as built by the
`selectedFields.forEach(field => newRow[field] = row[field])` loops
(lines 121-127 and 224-230 of converter.js).  Note the assignment happens
unconditionally, so an absent field stores `undefined` under the key. -/
def projectRow (selectedFields : List String) (row : List (String × Json)) :
    List (String × CellValue) :=
  selectedFields.foldl (fun newRow field => setKey newRow field (cellOf row field)) []

/-- Row projection over a record sequence, preserving record order. -/
def project (rows : List (List (String × Json))) (fields : List String) :
    List (List (String × CellValue)) :=
  rows.map (projectRow fields)

/-- Insertion-order deduplication, as JavaScript `new Set(...)`: keep the
first occurrence of each element. -/
def jsSetDedup (seen : List String) : List String → List String
  | [] => []
  | k :: rest =>
    if k ∈ seen then jsSetDedup seen rest else k :: jsSetDedup (k :: seen) rest

/-- `Array.from(new Set(data.flatMap(Object.keys)))` (lines 216 and 292 of
converter.js): the ordered set of unique keys across a record collection. -/
def deriveFields (data : List (List (String × Json))) : List String :=
  jsSetDedup [] (data.flatMap keysOf)

/-- The converter's mutable state: `#originalJsonData`,
`#flattenedAndCleanedData`, and the text of the message div. -/
structure ConverterState where
  originalJsonData : Json
  flattenedAndCleanedData : List (List (String × Json))
  message : String

/-- Initial state: both collections start as empty arrays (lines 18-20 of
converter.js). -/
def initialState : ConverterState :=
  { originalJsonData := Json.arr [], flattenedAndCleanedData := [], message := "" }

/-- The `reader.onload` body of `#handleJsonFileChange` (lines 69-86 of
converter.js).  `parsed` is the outcome of `JSON.parse` on the file text
(an external boundary): `.error` when parsing throws, `.ok` otherwise.
On a parse error the assignment to `#originalJsonData` never executes; on a
top-level non-array the assignment has already executed before the shape
check fails, and `#flattenedAndCleanedData` is left untouched. -/
def handleJsonFileChange (fmt : Int → String) (parsed : Except String Json)
    (s : ConverterState) : ConverterState :=
  match parsed with
  | .error msg => { s with message := "Error reading JSON file: " ++ msg }
  | .ok v =>
    match v with
    | .arr items =>
      { originalJsonData := .arr items,
        flattenedAndCleanedData := items.map (flattenAndCleanObject fmt),
        message := "" }
    | other =>
      { s with originalJsonData := other,
               message := "JSON data must be an array of objects." }

/-- Replace the first occurrence of `pattern` in a character list, as
JavaScript `String.prototype.replace` with a string pattern. -/
def replaceFirstAux (pattern replacement : List Char) : List Char → List Char
  | [] => []
  | c :: rest =>
    if pattern.isPrefixOf (c :: rest) then
      replacement ++ (c :: rest).drop pattern.length
    else c :: replaceFirstAux pattern replacement rest

/-- JavaScript `s.replace(pattern, replacement)` with a string pattern:
only the first occurrence is replaced. -/
def replaceFirst (s pattern replacement : String) : String :=
  String.mk (replaceFirstAux pattern.data replacement.data s.data)

/-- The spreadsheet write requested from the XLSX library: file name, sheet
name, and the projected rows. -/
structure ExportAction where
  fileName : String
  sheetName : String
  rows : List (List (String × CellValue))

/-- `#handleConvertButtonClick` (lines 104-136 of converter.js).
`inputFileName` is `jsonFileInput.files[0].name`; `selectedFields` is the
list of checked checkbox values.  Returns the message shown when the guard
clauses fire, or the export action handed to the XLSX library. -/
def handleConvertButtonClick (s : ConverterState) (inputFileName : String)
    (selectedFields : List String) : Except String ExportAction :=
  if s.flattenedAndCleanedData.isEmpty then
    .error "No data to convert. Please upload a JSON file first."
  else if selectedFields.isEmpty then
    .error "Please select at least one field to export."
  else
    .ok { fileName := replaceFirst inputFileName ".json" ".xlsx",
          sheetName := "Data",
          rows := s.flattenedAndCleanedData.map (projectRow selectedFields) }

/-! ## Helper lemmas -/

theorem setKey_cons_pos {α : Type} (pk key : String) (pv v : α)
    (rest : List (String × α)) (h : pk = key) :
    setKey ((pk, pv) :: rest) key v = (key, v) :: rest := by
  simp only [setKey]
  rw [if_pos h]

theorem setKey_cons_neg {α : Type} (pk key : String) (pv v : α)
    (rest : List (String × α)) (h : ¬ pk = key) :
    setKey ((pk, pv) :: rest) key v = (pk, pv) :: setKey rest key v := by
  simp only [setKey]
  rw [if_neg h]

theorem mem_keysOf_setKey {α : Type} (m : List (String × α)) (key k : String)
    (v : α) : k ∈ keysOf (setKey m key v) ↔ k = key ∨ k ∈ keysOf m := by
  induction m with
  | nil => simp [setKey, keysOf]
  | cons p rest ih =>
    obtain ⟨pk, pv⟩ := p
    by_cases hk : pk = key
    · rw [setKey_cons_pos _ _ _ _ _ hk]
      simp only [keysOf, List.map_cons, List.mem_cons] at ih ⊢
      subst hk
      tauto
    · rw [setKey_cons_neg _ _ _ _ _ hk]
      simp only [keysOf, List.map_cons, List.mem_cons] at ih ⊢
      tauto

theorem mem_valuesOf_setKey {α : Type} (m : List (String × α)) (key : String)
    (v w : α) (h : w ∈ valuesOf (setKey m key v)) : w = v ∨ w ∈ valuesOf m := by
  induction m with
  | nil => simpa [setKey, valuesOf] using h
  | cons p rest ih =>
    obtain ⟨pk, pv⟩ := p
    by_cases hk : pk = key
    · rw [setKey_cons_pos _ _ _ _ _ hk] at h
      simp only [valuesOf, List.map_cons, List.mem_cons] at h ⊢
      tauto
    · rw [setKey_cons_neg _ _ _ _ _ hk] at h
      simp only [valuesOf, List.map_cons, List.mem_cons] at h ⊢
      rcases h with h | h
      · tauto
      · rcases ih h with h' | h' <;> tauto

theorem pathsOf_ne_nil (props : List (String × Json)) :
    ∀ p ∈ pathsOf props, p ≠ [] := by
  induction props using pathsOf.induct with
  | case1 => simp [pathsOf]
  | case2 key fields rest ih1 ih2 =>
    intro p hp
    simp only [pathsOf, List.mem_append, List.mem_map] at hp
    rcases hp with ⟨q, _, rfl⟩ | hp
    · simp
    · exact ih2 p hp
  | case3 key e rest ih | case4 key n rest ih
  | case6 key b rest ih | case7 key s rest ih =>
    intro p hp
    simp only [pathsOf, List.mem_cons] at hp
    rcases hp with rfl | hp
    · simp
    · exact ih p hp
  | case5 key rest ih =>
    intro p hp
    simp only [pathsOf, List.mem_cons] at hp
    rcases hp with rfl | hp
    · simp
    · exact ih p hp

theorem joinPath_cons (parent key : String) (p : List String) :
    joinPath parent (key :: p) = joinPath (dotPath parent key) p := rfl

theorem joinPath_length_le (p : List String) :
    ∀ q : String, q ≠ "" → q.length ≤ (joinPath q p).length := by
  induction p with
  | nil => intro q _; exact le_refl _
  | cons k p ih =>
    intro q hq
    rw [joinPath_cons]
    have hdot : dotPath q k = q ++ "." ++ k := if_neg hq
    have hdotlen : (".").length = 1 := rfl
    have hlen : (dotPath q k).length = q.length + 1 + k.length := by
      rw [hdot]; simp [String.length_append, hdotlen]
    have hne : dotPath q k ≠ "" := by
      intro h
      have h0 := congrArg String.length h
      have hz : ("" : String).length = 0 := rfl
      rw [hlen, hz] at h0
      omega
    have := ih (dotPath q k) hne
    omega

theorem joinPath_length_lt (p : List String) (q : String) (hq : q ≠ "")
    (hp : p ≠ []) : q.length < (joinPath q p).length := by
  obtain ⟨k, p', rfl⟩ := List.exists_cons_of_ne_nil hp
  rw [joinPath_cons]
  have hdot : dotPath q k = q ++ "." ++ k := if_neg hq
  have hdotlen : (".").length = 1 := rfl
  have hlen : (dotPath q k).length = q.length + 1 + k.length := by
    rw [hdot]; simp [String.length_append, hdotlen]
  have hne : dotPath q k ≠ "" := by
    intro h
    have h0 := congrArg String.length h
    have hz : ("" : String).length = 0 := rfl
    rw [hlen, hz] at h0
    omega
  have := joinPath_length_le p' (dotPath q k) hne
  omega

theorem flattenAux_keys (fmt : Int → String) (props : List (String × Json))
    (parentKey : String) (result : List (String × Json)) :
    ∀ k ∈ keysOf (flattenAux fmt props parentKey result),
      k ∈ keysOf result ∨ ∃ p ∈ pathsOf props, k = joinPath parentKey p := by
  induction props, parentKey, result using flattenAux.induct fmt with
  | case1 parentKey result =>
    intro k hk
    left
    simpa [flattenAux] using hk
  | case2 parentKey result key fields rest ih1 ih2 =>
    intro k hk
    simp only [flattenAux] at hk
    rcases ih2 k hk with h | ⟨p, hp, rfl⟩
    · rcases ih1 k h with h' | ⟨p, hp, rfl⟩
      · left; exact h'
      · right
        refine ⟨key :: p, ?_, (joinPath_cons parentKey key p).symm⟩
        simp only [pathsOf, List.mem_append, List.mem_map]
        exact Or.inl ⟨p, hp, rfl⟩
    · right
      exact ⟨p, by simp [pathsOf, hp], rfl⟩
  | case3 parentKey result key elems rest ih =>
    intro k hk
    simp only [flattenAux] at hk
    rcases ih k hk with h | ⟨p, hp, rfl⟩
    · have h' : k = dotPath parentKey key ∨ k ∈ keysOf result := by
        by_cases hc : elems.all isSimple <;>
          simpa [hc, mem_keysOf_setKey] using h
      rcases h' with rfl | h'
      · right
        exact ⟨[key], by simp [pathsOf], rfl⟩
      · left; exact h'
    · right
      exact ⟨p, by simp [pathsOf, hp], rfl⟩
  | case4 parentKey result key n rest ih =>
    intro k hk
    simp only [flattenAux] at hk
    rcases ih k hk with h | ⟨p, hp, rfl⟩
    · have h' : k = dotPath parentKey key ∨ k ∈ keysOf result := by
        by_cases hc : key ∈ timestampFields ∧ 0 < n <;>
          simpa [hc, mem_keysOf_setKey] using h
      rcases h' with rfl | h'
      · right
        exact ⟨[key], by simp [pathsOf], rfl⟩
      · left; exact h'
    · right
      exact ⟨p, by simp [pathsOf, hp], rfl⟩
  | case5 parentKey result key rest ih =>
    intro k hk
    simp only [flattenAux] at hk
    rcases ih k hk with h | ⟨p, hp, rfl⟩
    · rcases (mem_keysOf_setKey _ _ _ _).mp h with rfl | h'
      · right
        exact ⟨[key], by simp [pathsOf], rfl⟩
      · left; exact h'
    · right
      exact ⟨p, by simp [pathsOf, hp], rfl⟩
  | case6 parentKey result key b rest ih =>
    intro k hk
    simp only [flattenAux] at hk
    rcases ih k hk with h | ⟨p, hp, rfl⟩
    · rcases (mem_keysOf_setKey _ _ _ _).mp h with rfl | h'
      · right
        exact ⟨[key], by simp [pathsOf], rfl⟩
      · left; exact h'
    · right
      exact ⟨p, by simp [pathsOf, hp], rfl⟩
  | case7 parentKey result key s rest ih =>
    intro k hk
    simp only [flattenAux] at hk
    rcases ih k hk with h | ⟨p, hp, rfl⟩
    · rcases (mem_keysOf_setKey _ _ _ _).mp h with rfl | h'
      · right
        exact ⟨[key], by simp [pathsOf], rfl⟩
      · left; exact h'
    · right
      exact ⟨p, by simp [pathsOf, hp], rfl⟩

theorem flattenAux_values_scalar (fmt : Int → String)
    (props : List (String × Json)) (parentKey : String)
    (result : List (String × Json)) :
    (∀ v ∈ valuesOf result, isFlatScalar v = true) →
    ∀ v ∈ valuesOf (flattenAux fmt props parentKey result), isFlatScalar v = true := by
  induction props, parentKey, result using flattenAux.induct fmt with
  | case1 parentKey result =>
    intro h v hv
    exact h v (by simpa [flattenAux] using hv)
  | case2 parentKey result key fields rest ih1 ih2 =>
    intro h v hv
    exact ih2 (ih1 h) v (by simpa [flattenAux] using hv)
  | case3 parentKey result key elems rest ih =>
    intro h v hv
    refine ih ?_ v (by simpa [flattenAux] using hv)
    intro w hw
    by_cases hc : elems.all isSimple = true <;>
      [rw [dif_pos hc] at hw; rw [dif_neg hc] at hw] <;>
      rcases mem_valuesOf_setKey _ _ _ _ hw with rfl | hw' <;>
        first | rfl | exact h _ hw'
  | case4 parentKey result key n rest ih =>
    intro h v hv
    refine ih ?_ v (by simpa [flattenAux] using hv)
    intro w hw
    by_cases hc : key ∈ timestampFields ∧ 0 < n <;>
      [rw [dif_pos hc] at hw; rw [dif_neg hc] at hw] <;>
      rcases mem_valuesOf_setKey _ _ _ _ hw with rfl | hw' <;>
        first | rfl | exact h _ hw'
  | case5 parentKey result key rest ih =>
    intro h v hv
    refine ih ?_ v (by simpa [flattenAux] using hv)
    intro w hw
    rcases mem_valuesOf_setKey _ _ _ _ hw with rfl | hw'
    · rfl
    · exact h _ hw'
  | case6 parentKey result key b rest ih =>
    intro h v hv
    refine ih ?_ v (by simpa [flattenAux] using hv)
    intro w hw
    rcases mem_valuesOf_setKey _ _ _ _ hw with rfl | hw'
    · rfl
    · exact h _ hw'
  | case7 parentKey result key s rest ih =>
    intro h v hv
    refine ih ?_ v (by simpa [flattenAux] using hv)
    intro w hw
    rcases mem_valuesOf_setKey _ _ _ _ hw with rfl | hw'
    · rfl
    · exact h _ hw'

theorem setKey_append {α : Type} (m : List (String × α)) (key : String)
    (v : α) (h : key ∉ keysOf m) : setKey m key v = m ++ [(key, v)] := by
  induction m with
  | nil => simp [setKey]
  | cons p rest ih =>
    obtain ⟨pk, pv⟩ := p
    simp only [keysOf, List.map_cons, List.mem_cons] at h
    push_neg at h
    rw [setKey_cons_neg _ _ _ _ _ (fun he => h.1 he.symm)]
    rw [ih h.2]
    simp

theorem foldl_setKey_fresh {α : Type} (g : String → α) (fields : List String) :
    ∀ acc : List (String × α), fields.Nodup → (∀ f ∈ fields, f ∉ keysOf acc) →
      fields.foldl (fun m f => setKey m f (g f)) acc
        = acc ++ fields.map (fun f => (f, g f)) := by
  induction fields with
  | nil => intro acc _ _; simp
  | cons f fields ih =>
    intro acc hnd hfresh
    simp only [List.foldl_cons]
    rw [setKey_append _ _ _ (hfresh f (by simp))]
    rw [ih (acc ++ [(f, g f)]) (List.Nodup.of_cons hnd) ?_]
    · simp
    · intro f' hf'
      simp only [keysOf, List.map_append, List.mem_append, List.map_cons,
        List.map_nil, List.mem_singleton]
      push_neg
      refine ⟨hfresh f' (by simp [hf']), ?_⟩
      intro he
      subst he
      exact (List.nodup_cons.mp hnd).1 hf'

theorem projectRow_eq_map (fields : List String) (row : List (String × Json))
    (h : fields.Nodup) :
    projectRow fields row = fields.map (fun f => (f, cellOf row f)) := by
  have := foldl_setKey_fresh (cellOf row) fields [] h (by simp [keysOf])
  simpa [projectRow] using this

theorem lookup_map_self {α : Type} (g : String → α) (fields : List String)
    (f : String) (hf : f ∈ fields) :
    (fields.map (fun x => (x, g x))).lookup f = some (g f) := by
  induction fields with
  | nil => cases hf
  | cons x rest ih =>
    simp only [List.map_cons, List.lookup]
    by_cases he : f = x
    · subst he
      simp
    · rw [show (f == x) = false from beq_eq_false_iff_ne.mpr he]
      exact ih (by rcases List.mem_cons.mp hf with h | h; exact absurd h he; exact h)

theorem mem_jsSetDedup (l : List String) :
    ∀ seen k, k ∈ jsSetDedup seen l ↔ k ∈ l ∧ k ∉ seen := by
  induction l with
  | nil => intro seen k; simp [jsSetDedup]
  | cons k0 rest ih =>
    intro seen k
    by_cases h : k0 ∈ seen
    · rw [show jsSetDedup seen (k0 :: rest) = jsSetDedup seen rest from by
        simp only [jsSetDedup]; rw [if_pos h]]
      rw [ih seen k]
      constructor
      · rintro ⟨h1, h2⟩
        exact ⟨List.mem_cons_of_mem _ h1, h2⟩
      · rintro ⟨h1, h2⟩
        rcases List.mem_cons.mp h1 with rfl | h1
        · exact absurd h h2
        · exact ⟨h1, h2⟩
    · rw [show jsSetDedup seen (k0 :: rest) = k0 :: jsSetDedup (k0 :: seen) rest
        from by simp only [jsSetDedup]; rw [if_neg h]]
      constructor
      · intro hm
        rcases List.mem_cons.mp hm with rfl | hm
        · exact ⟨List.mem_cons_self _ _, h⟩
        · obtain ⟨h1, h2⟩ := (ih (k0 :: seen) k).mp hm
          exact ⟨List.mem_cons_of_mem _ h1,
            fun hs => h2 (List.mem_cons_of_mem _ hs)⟩
      · rintro ⟨h1, h2⟩
        by_cases he : k = k0
        · exact List.mem_cons.mpr (Or.inl he)
        · rcases List.mem_cons.mp h1 with rfl | h1
          · exact absurd rfl he
          · refine List.mem_cons_of_mem _ ((ih (k0 :: seen) k).mpr ⟨h1, ?_⟩)
            intro hs
            rcases List.mem_cons.mp hs with he' | hs'
            · exact he he'
            · exact h2 hs'

theorem nodup_jsSetDedup (l : List String) :
    ∀ seen, (jsSetDedup seen l).Nodup := by
  induction l with
  | nil => intro seen; simp [jsSetDedup]
  | cons k0 rest ih =>
    intro seen
    by_cases h : k0 ∈ seen
    · rw [show jsSetDedup seen (k0 :: rest) = jsSetDedup seen rest from by
        simp only [jsSetDedup]; rw [if_pos h]]
      exact ih seen
    · rw [show jsSetDedup seen (k0 :: rest) = k0 :: jsSetDedup (k0 :: seen) rest
        from by simp only [jsSetDedup]; rw [if_neg h]]
      refine List.nodup_cons.mpr ⟨?_, ih (k0 :: seen)⟩
      intro hm
      exact ((mem_jsSetDedup rest (k0 :: seen) k0).mp hm).2 (List.mem_cons_self _ _)

theorem pairwise_jsSetDedup (l : List String) :
    ∀ seen, (jsSetDedup seen l).Pairwise
      (fun a b => List.indexOf a l < List.indexOf b l) := by
  induction l with
  | nil => intro seen; simp [jsSetDedup]
  | cons k0 rest ih =>
    intro seen
    by_cases h : k0 ∈ seen
    · rw [show jsSetDedup seen (k0 :: rest) = jsSetDedup seen rest from by
        simp only [jsSetDedup]; rw [if_pos h]]
      refine (ih seen).imp_of_mem ?_
      intro a b ha hb hab
      have hna : a ≠ k0 := by
        intro he
        exact ((mem_jsSetDedup rest seen a).mp ha).2 (he ▸ h)
      have hnb : b ≠ k0 := by
        intro he
        exact ((mem_jsSetDedup rest seen b).mp hb).2 (he ▸ h)
      rw [List.indexOf_cons_ne _ (fun he => hna he.symm),
        List.indexOf_cons_ne _ (fun he => hnb he.symm)]
      omega
    · rw [show jsSetDedup seen (k0 :: rest) = k0 :: jsSetDedup (k0 :: seen) rest
        from by simp only [jsSetDedup]; rw [if_neg h]]
      refine List.Pairwise.cons ?_ ?_
      · intro b hb
        have hnb : b ≠ k0 := by
          intro he
          exact ((mem_jsSetDedup rest (k0 :: seen) b).mp hb).2
            (he ▸ List.mem_cons_self _ _)
        rw [List.indexOf_cons_self, List.indexOf_cons_ne _ (fun he => hnb he.symm)]
        omega
      · refine (ih (k0 :: seen)).imp_of_mem ?_
        intro a b ha hb hab
        have hna : a ≠ k0 := by
          intro he
          exact ((mem_jsSetDedup rest (k0 :: seen) a).mp ha).2
            (he ▸ List.mem_cons_self _ _)
        have hnb : b ≠ k0 := by
          intro he
          exact ((mem_jsSetDedup rest (k0 :: seen) b).mp hb).2
            (he ▸ List.mem_cons_self _ _)
        rw [List.indexOf_cons_ne _ (fun he => hna he.symm),
          List.indexOf_cons_ne _ (fun he => hnb he.symm)]
        omega


/-! ## Claim theorems -/

/-- C1 counterexample: the claim counts `null` among the scalars that are
joined with ", ", but in the code `typeof null === 'object'`, so an array
containing `null` is JSON-serialized instead of joined: `flatten({a: [null]})`
yields `"[null]"`, not the join (which would be `""`, or `"null"` under
`String(null)` coercion). -/
theorem flatten_array_null_counterexample :
    flattenAndCleanObject fmt0 (.obj [("a", .arr [Json.null])])
      = [("a", Json.str "[null]")] ∧
    Json.str "[null]" ≠ Json.str (joinScalars [Json.null]) ∧
    Json.str "[null]" ≠ Json.str "null" := by
  refine ⟨?_, ?_, ?_⟩
  · simp [flattenAndCleanObject, flattenAux, ownProps, dotPath, setKey,
      isSimple, stringify, stringifyElems]
  · simp only [joinScalars, List.map_cons, List.map_nil, joinElem, ne_eq,
      Json.str.injEq]
    decide
  · simp only [ne_eq, Json.str.injEq]
    decide

/-- C1 (amended): for a key whose value is an array, flatten emits at the
dotted path the elements joined with ", " when every element is simple in
the JavaScript sense — a boolean, number, or string, but not `null` (whose
`typeof` is `'object'`) — and otherwise emits the compact JSON serialization
of the array. -/
theorem flatten_array_branch (fmt : Int → String) (key : String)
    (elems : List Json) (rest : List (String × Json)) (parentKey : String)
    (result : List (String × Json)) :
    flattenAux fmt ((key, Json.arr elems) :: rest) parentKey result
      = flattenAux fmt rest parentKey
          (setKey result (dotPath parentKey key)
            (Json.str (if elems.all isSimple then joinScalars elems
              else stringify (Json.arr elems)))) ∧
    (∀ j, isSimple j = true ↔
      ((∃ b, j = Json.bool b) ∨ (∃ n, j = Json.num n) ∨ (∃ s, j = Json.str s))) ∧
    flattenAndCleanObject fmt (.obj [("tags", .arr [.str "x", .str "y"])])
      = [("tags", .str "x, y")] ∧
    flattenAndCleanObject fmt (.obj [("tags", .arr [.obj [("x", .num 1)]])])
      = [("tags", .str "[\x7b\"x\":1\x7d]")] := by
  refine ⟨?_, ?_, ?_, ?_⟩
  · by_cases hc : elems.all isSimple = true <;> simp [flattenAux, hc]
  · intro j
    cases j <;> simp [isSimple]
  · simp [flattenAndCleanObject, flattenAux, ownProps, dotPath, setKey,
      isSimple, joinScalars, joinElem] <;> decide
  · simp [flattenAndCleanObject, flattenAux, ownProps, dotPath, setKey,
      isSimple, stringify, stringifyElems, stringifyProps, quoteJson,
      escapeString, escapeChar] <;> decide

/-- C2 counterexample: the claim says no entry is emitted for the
intermediate dotted path itself, but a root-level empty-string key has
dotted path `""`, which is falsy in JavaScript, so the recursion restarts
path joining and a descendant can emit at that very path:
`flatten({"": {"": 5}})` is `{"": 5}`, an entry at the intermediate path. -/
theorem flatten_empty_key_alias_counterexample :
    flattenAndCleanObject fmt0 (.obj [("", .obj [("", .num 5)])])
      = [("", Json.num 5)] ∧
    dotPath "" "" = "" := by
  constructor
  · simp [flattenAndCleanObject, flattenAux, ownProps, dotPath, setKey,
      timestampFields]
  · rfl

/-- C2 (amended): for a key whose value is a non-null, non-array structured
mapping, flatten recurses into it with the dotted path as the new parent
prefix; whenever that dotted path is nonempty, no entry is emitted at the
path itself (only descendants emit).  A root-level empty-string key yields
the empty dotted path, which aliases the root prefix, and its descendants
may then emit at the path itself.  `flatten({a: {b: 1, c: 2}})` equals
`{"a.b": 1, "a.c": 2}`. -/
theorem flatten_object_recursion (fmt : Int → String) (key : String)
    (fields rest : List (String × Json)) (parentKey : String)
    (result : List (String × Json)) (h : dotPath parentKey key ≠ "") :
    flattenAux fmt ((key, Json.obj fields) :: rest) parentKey result
      = flattenAux fmt rest parentKey
          (flattenAux fmt fields (dotPath parentKey key) result) ∧
    dotPath parentKey key ∉
      keysOf (flattenAux fmt fields (dotPath parentKey key) []) ∧
    flattenAndCleanObject fmt (.obj [("a", .obj [("b", .num 1), ("c", .num 2)])])
      = [("a.b", .num 1), ("a.c", .num 2)] := by
  refine ⟨by simp [flattenAux], ?_, ?_⟩
  · intro hk
    rcases flattenAux_keys fmt fields (dotPath parentKey key) [] _ hk with h' | ⟨p, hp, he⟩
    · simp [keysOf] at h'
    · have hne := pathsOf_ne_nil fields p hp
      have := joinPath_length_lt p (dotPath parentKey key) h hne
      rw [← he] at this
      omega
  · simp [flattenAndCleanObject, flattenAux, ownProps, dotPath, setKey,
      timestampFields]

/-- Witness for C2: concrete instantiation of `flatten_object_recursion`. -/
theorem flatten_object_recursion_witness :
    "a" ∉ keysOf (flattenAux fmt0 [("b", Json.num 1)] (dotPath "" "a") []) := by
  have h := flatten_object_recursion fmt0 "a" [("b", Json.num 1)] [] "" []
    (by decide)
  exact h.2.1

/-- C3: for a key named createdOn, modifiedOn, dueDate, reportedTime, or
remainingTime whose value is a number, flatten emits the formatted date
string (the external moment-js formatter `fmt`, pattern
`YYYY-MM-DD HH:mm:ss` in local time) exactly when the number is positive,
and passes the number through unchanged when it is not positive; in
particular `flatten({createdOn: -5})` equals `{createdOn: -5}`. -/
theorem flatten_timestamp_formatting (fmt : Int → String) (key : String)
    (n : Int) (rest : List (String × Json)) (parentKey : String)
    (result : List (String × Json)) (hk : key ∈ timestampFields) :
    (0 < n →
      flattenAux fmt ((key, Json.num n) :: rest) parentKey result
        = flattenAux fmt rest parentKey
            (setKey result (dotPath parentKey key) (Json.str (fmt n)))) ∧
    (¬ 0 < n →
      flattenAux fmt ((key, Json.num n) :: rest) parentKey result
        = flattenAux fmt rest parentKey
            (setKey result (dotPath parentKey key) (Json.num n))) ∧
    flattenAndCleanObject fmt (.obj [("createdOn", .num (-5))])
      = [("createdOn", .num (-5))] := by
  refine ⟨?_, ?_, ?_⟩
  · intro hn
    simp [flattenAux, hk, hn]
  · intro hn
    simp [flattenAux, hn]
  · simp [flattenAndCleanObject, flattenAux, ownProps, dotPath, setKey,
      timestampFields]

/-- Witness for C3: concrete instantiation of `flatten_timestamp_formatting`
at a positive timestamp value. -/
theorem flatten_timestamp_formatting_witness :
    flattenAux fmt0 [("createdOn", Json.num 7)] "" []
      = [("createdOn", Json.str (fmt0 7))] := by
  have h := (flatten_timestamp_formatting fmt0 "createdOn" 7 [] "" []
    (by decide)).1 (by norm_num)
  rw [h]
  simp [flattenAux, setKey, dotPath]

/-- C4: deriveFields returns the union of all keys appearing in any record,
deduplicated, ordered by first occurrence scanning records in sequence order
and keys within a record in that record's key order (that is, ordered by
first occurrence in the concatenated key stream); for the empty sequence it
returns the empty sequence, and `deriveFields([{a:1},{b:2}])` equals
`["a","b"]`. -/
theorem deriveFields_spec :
    deriveFields [] = [] ∧
    deriveFields [[("a", Json.num 1)], [("b", Json.num 2)]] = ["a", "b"] ∧
    (∀ data, (deriveFields data).Nodup) ∧
    (∀ data k, k ∈ deriveFields data ↔ ∃ r ∈ data, k ∈ keysOf r) ∧
    (∀ data, (deriveFields data).Pairwise
      (fun a b => List.indexOf a (data.flatMap keysOf)
        < List.indexOf b (data.flatMap keysOf))) := by
  refine ⟨rfl, rfl, ?_, ?_, ?_⟩
  · intro data
    exact nodup_jsSetDedup _ []
  · intro data k
    rw [show deriveFields data = jsSetDedup [] (data.flatMap keysOf) from rfl]
    rw [mem_jsSetDedup]
    simp [List.mem_flatMap]
  · intro data
    exact pairwise_jsSetDedup _ []

/-- C5 counterexample: the claim says a field present in the field list but
absent from a source record is omitted from that record's result, but the
code executes `newRow[field] = row[field]` unconditionally, which creates
the key bound to `undefined`: projecting `{a: 1}` onto `["a","b"]` yields a
record whose keys are `["a","b"]`, with `"b"` bound to `undefined` (and not
to `null`). -/
theorem project_absent_key_counterexample :
    List.lookup "b" [("a", Json.num 1)] = none ∧
    keysOf (projectRow ["a", "b"] [("a", Json.num 1)]) = ["a", "b"] ∧
    List.lookup "b" (projectRow ["a", "b"] [("a", Json.num 1)])
      = some CellValue.undef ∧
    CellValue.undef ≠ CellValue.val Json.null := by
  refine ⟨rfl, rfl, rfl, fun h => CellValue.noConfusion h⟩

/-- C5 (amended): projection restricts each record to the listed fields
preserving record order; a field present in the field list but absent from a
given source record appears in that record's result bound to the
`undefined` marker (not to `null`) — downstream renderers treat `undefined`
as an empty display value. -/
theorem project_restricts_fields (rows : List (List (String × Json)))
    (fields : List String) (h : fields.Nodup) :
    project rows fields = rows.map (projectRow fields) ∧
    (∀ row, keysOf (projectRow fields row) = fields) ∧
    (∀ row f, f ∈ fields →
      (projectRow fields row).lookup f = some (cellOf row f)) ∧
    (∀ row f, f ∈ fields → row.lookup f = none →
      (projectRow fields row).lookup f = some CellValue.undef) ∧
    (∀ row, projectRow ([] : List String) row = []) ∧
    CellValue.undef ≠ CellValue.val Json.null := by
  refine ⟨rfl, ?_, ?_, ?_, fun row => rfl, fun hc => CellValue.noConfusion hc⟩
  · intro row
    rw [projectRow_eq_map fields row h]
    simp [keysOf, List.map_map, Function.comp_def]
  · intro row f hf
    rw [projectRow_eq_map fields row h]
    exact lookup_map_self (cellOf row) fields f hf
  · intro row f hf hnone
    rw [projectRow_eq_map fields row h]
    rw [lookup_map_self (cellOf row) fields f hf]
    simp [cellOf, hnone]

/-- Witness for C5: concrete instantiation of `project_restricts_fields`. -/
theorem project_restricts_fields_witness :
    keysOf (projectRow ["a", "x"] [("a", Json.num 1)]) = ["a", "x"] :=
  (project_restricts_fields [[("a", Json.num 1)]] ["a", "x"] (by decide)).2.1
    [("a", Json.num 1)]

/-- C6 counterexample: the claim says every flattened value is a string or a
number, but `null` values pass through unchanged:
`flatten({a: null})` equals `{a: null}`, and `null` is neither a string nor
a number. -/
theorem flatten_null_value_counterexample :
    flattenAndCleanObject fmt0 (.obj [("a", Json.null)]) = [("a", Json.null)] ∧
    isStringOrNumber Json.null = false := by
  constructor
  · simp [flattenAndCleanObject, flattenAux, ownProps, dotPath, setKey]
  · rfl

/-- C6 (amended): every value in the FlatRecord produced by flatten is a
scalar — `null`, a boolean, a number, or a string — and never a nested
mapping or sequence. -/
theorem flatten_values_scalar_invariant (fmt : Int → String) (j : Json) :
    ∀ v ∈ valuesOf (flattenAndCleanObject fmt j), isFlatScalar v = true :=
  flattenAux_values_scalar fmt (ownProps j) "" [] (by simp [valuesOf])

/-- Witness for C6: concrete instantiation of
`flatten_values_scalar_invariant`. -/
theorem flatten_values_scalar_invariant_witness :
    isFlatScalar (Json.bool true) = true := by
  refine flatten_values_scalar_invariant fmt0 (.obj [("a", Json.bool true)])
    (Json.bool true) ?_
  simp [flattenAndCleanObject, flattenAux, ownProps, dotPath, setKey, valuesOf]

/-- C7 (code bug): after a successful load of `[{"a":1}]` followed by a load
of `{"x":2}` (valid JSON whose top level is not an array), the handler has
already assigned the new parsed value to `#originalJsonData` before the
shape check fails, but `#flattenedAndCleanedData` still holds the rows
derived from the previous file: the two collections are derived from
different files, contradicting the replace-wholesale lifecycle. -/
theorem shapeError_preserves_stale_flattened :
    (handleJsonFileChange fmt0 (.ok (Json.obj [("x", Json.num 2)]))
        (handleJsonFileChange fmt0 (.ok (Json.arr [Json.obj [("a", Json.num 1)]]))
          initialState)).originalJsonData = Json.obj [("x", Json.num 2)] ∧
    (handleJsonFileChange fmt0 (.ok (Json.obj [("x", Json.num 2)]))
        (handleJsonFileChange fmt0 (.ok (Json.arr [Json.obj [("a", Json.num 1)]]))
          initialState)).flattenedAndCleanedData = [[("a", Json.num 1)]] ∧
    (handleJsonFileChange fmt0 (.ok (Json.obj [("x", Json.num 2)]))
        (handleJsonFileChange fmt0 (.ok (Json.arr [Json.obj [("a", Json.num 1)]]))
          initialState)).message = "JSON data must be an array of objects." := by
  refine ⟨rfl, ?_, rfl⟩
  simp [handleJsonFileChange, initialState, flattenAndCleanObject, flattenAux,
    ownProps, dotPath, setKey, timestampFields]

/-- C8 counterexample: the flattened key is not always the "."-joined
root-to-leaf path.  For `{"": {"b": 1}}` the only root-to-leaf path is
`["", "b"]`, whose "."-join is `".b"`, but the emitted key is `"b"`,
because the empty accumulated prefix is falsy and restarts joining. -/
theorem flatten_root_empty_key_path_counterexample :
    keysOf (flattenAndCleanObject fmt0
        (Json.obj [("", Json.obj [("b", Json.num 1)])])) = ["b"] ∧
    pathsOf (ownProps (Json.obj [("", Json.obj [("b", Json.num 1)])]))
      = [["", "b"]] ∧
    ¬ ∃ p ∈ [["", "b"]], "b" = String.intercalate "." p := by
  refine ⟨?_, ?_, ?_⟩
  · simp [flattenAndCleanObject, flattenAux, ownProps, dotPath, setKey,
      timestampFields, keysOf]
  · simp [pathsOf, ownProps]
  · decide

/-- C8 (amended): for every input, flatten terminates (the model is a total
function), and every key of the resulting FlatRecord is obtained from a
root-to-leaf (or root-to-array) path of the input by folding the
JavaScript path constructor `parent ? parent + "." + key : key` over the
path — which coincides with the "."-join except that an empty accumulated
prefix (the root, or a root-level empty-string key) restarts joining. -/
theorem flatten_keys_are_joined_paths (fmt : Int → String) (j : Json)
    (k : String) (hk : k ∈ keysOf (flattenAndCleanObject fmt j)) :
    ∃ p ∈ pathsOf (ownProps j), k = joinPath "" p := by
  rcases flattenAux_keys fmt (ownProps j) "" [] k hk with h | h
  · simp [keysOf] at h
  · exact h

/-- Witness for C8: concrete instantiation of
`flatten_keys_are_joined_paths`. -/
theorem flatten_keys_are_joined_paths_witness :
    ∃ p ∈ pathsOf (ownProps (Json.obj [("a", Json.obj [("b", Json.num 1)])])),
      "a.b" = joinPath "" p := by
  refine flatten_keys_are_joined_paths fmt0 _ "a.b" ?_
  simp [flattenAndCleanObject, flattenAux, ownProps, dotPath, setKey,
    timestampFields, keysOf]

/-- C9 counterexample: the export file name is not the base name with its
extension replaced; the code runs `name.replace('.json', '.xlsx')`, which
replaces the first occurrence of the substring `".json"`.  For the loaded
file named `"a.json.json"` the export is written to `"a.xlsx.json"`,
whereas replacing the extension would give `"a.json.xlsx"`. -/
theorem convert_filename_replace_counterexample :
    handleConvertButtonClick
        { originalJsonData := Json.arr [Json.obj [("a", Json.num 1)]],
          flattenedAndCleanedData := [[("a", Json.num 1)]], message := "" }
        "a.json.json" ["a"]
      = .ok { fileName := "a.xlsx.json", sheetName := "Data",
              rows := [[("a", CellValue.val (Json.num 1))]] } ∧
    "a.xlsx.json" ≠ "a.json.xlsx" := by
  constructor
  · rfl
  · decide

/-- C9 (amended): the export output file name is the input file name with
the first occurrence of the substring `".json"` replaced by `".xlsx"` (the
name is unchanged when `".json"` does not occur; the occurrence need not be
the extension); the sheet is named `Data`; and when no data is loaded the
handler performs no spreadsheet write and reports a user-visible message. -/
theorem convert_button_contract (s : ConverterState) (name : String)
    (fields : List String) :
    (s.flattenedAndCleanedData = [] →
      handleConvertButtonClick s name fields
        = .error "No data to convert. Please upload a JSON file first.") ∧
    (s.flattenedAndCleanedData ≠ [] → fields ≠ [] →
      handleConvertButtonClick s name fields
        = .ok { fileName := replaceFirst name ".json" ".xlsx",
                sheetName := "Data",
                rows := s.flattenedAndCleanedData.map (projectRow fields) }) ∧
    replaceFirst "data.json" ".json" ".xlsx" = "data.xlsx" ∧
    replaceFirst "notes.txt" ".json" ".xlsx" = "notes.txt" ∧
    replaceFirst "a.json.json" ".json" ".xlsx" = "a.xlsx.json" := by
  refine ⟨?_, ?_, rfl, rfl, rfl⟩
  · intro h
    simp [handleConvertButtonClick, h]
  · intro h1 h2
    simp [handleConvertButtonClick, h1, h2, List.isEmpty_iff]

/-- Witness for C9: concrete instantiation of `convert_button_contract` in
the no-data state. -/
theorem convert_button_contract_witness :
    handleConvertButtonClick initialState "x.json" ["a"]
      = .error "No data to convert. Please upload a JSON file first." :=
  (convert_button_contract initialState "x.json" ["a"]).1 rfl

/-- C10: elements of the loaded top-level array need not be structured
mappings: a `null`, boolean, or number element flattens without error to an
empty FlatRecord (the `for..in` loop enumerates no properties), the derived
collection is the element-wise map of the flatten transform (so the empty
record sits at the element's ordinal position), and the load reports no
error message — there is no per-element shape check beyond the top-level
array check. -/
theorem primitive_elements_flatten_empty (fmt : Int → String) :
    flattenAndCleanObject fmt Json.null = [] ∧
    (∀ b, flattenAndCleanObject fmt (Json.bool b) = []) ∧
    (∀ n, flattenAndCleanObject fmt (Json.num n) = []) ∧
    (∀ items : List Json, ∀ s : ConverterState,
      (handleJsonFileChange fmt (.ok (Json.arr items)) s).flattenedAndCleanedData
        = items.map (flattenAndCleanObject fmt) ∧
      (handleJsonFileChange fmt (.ok (Json.arr items)) s).message = "") := by
  refine ⟨?_, ?_, ?_, ?_⟩
  · simp [flattenAndCleanObject, ownProps, flattenAux]
  · intro b
    simp [flattenAndCleanObject, ownProps, flattenAux]
  · intro n
    simp [flattenAndCleanObject, ownProps, flattenAux]
  · intro items s
    exact ⟨rfl, rfl⟩
end JsonToXlsx
